import Mathlib

/-!
# Verification of the `pdfanalyzer` span/fragment/paragraph algorithms

Shallow embedding of `src/pdfanalyzer/__init__.py`.  The PDF-extraction
library (`fitz`) is an external collaborator; everything downstream of the
flat span list is embedded here:

* `Span`, `Span.has_equal_metadata`  — the span data class and its
  metadata comparison (all attributes except `text`);
* `Fragment`, `Fragment.to_string`   — the fragment data class; the
  optional `text` override field is `Option String` (`None` in Python is
  `none`); `to_string` joins the span texts with a separator defaulting
  to a single space;
* `convert_to_fragments`             — the single-pass grouping of spans
  into fragments; the Python code evaluates `spans[0]` first, which
  raises on an empty list, hence the `Option` result;
* `join_hyperlinks`                  — the in-place hyperlink merge over
  a Python slice `[start:end]`; `fragment.spans[0]` can raise when the colour
  matches and the span list is empty, hence the `Option` result;
* `get_paragraph`                    — paragraph assembly from a start
  index up to an optional bound; `self._fragments[start]` can raise,
  hence the `Option` result;
* `get_index_by_text`                — exact-text linear search
  returning `(-1, -1)` when absent.

The source stores `font_size` as a Python float but only ever compares it
with `==`/`!=`; it is embedded as `Int`, which preserves exactly the
decidable-equality behaviour the program uses.  Python `None`-or-empty
truthiness of the override text (`previous.text or previous.to_string()`)
is embedded exactly in `fragText`.
-/

/-- `Span` of `__init__.py`: font size, font family, text colour and the
literal text. -/
structure Span where
  font_size : Int
  font_family : String
  text_color : Int
  text : String
deriving DecidableEq, Repr

/-- `Span.has_equal_metadata`: all attributes but `text` agree. -/
def Span.has_equal_metadata (s other : Span) : Bool :=
  s.font_size == other.font_size
    && s.font_family == other.font_family
    && s.text_color == other.text_color

/-- Propositional form of `Span.has_equal_metadata`. -/
def metaEq (a b : Span) : Prop :=
  a.font_size = b.font_size ∧ a.font_family = b.font_family
    ∧ a.text_color = b.text_color

instance : DecidablePred fun p : Span × Span => metaEq p.1 p.2 :=
  fun _ => by unfold metaEq; infer_instance

instance (a b : Span) : Decidable (metaEq a b) := by
  unfold metaEq; infer_instance

/-- `Fragment` of `__init__.py`.  The `text` attribute defaults to
`None` and is only populated by `join_hyperlinks`. -/
structure Fragment where
  index : Nat
  spans : List Span
  font_size : Int
  font_family : String
  text_color : Int
  text : Option String := none
deriving DecidableEq, Repr

/-- `Fragment.to_string`: join the spans' texts with `join_str`
(default a single space). -/
def Fragment.to_string (f : Fragment) (join_str : String := " ") : String :=
  String.intercalate join_str (f.spans.map Span.text)

/-- Python list slicing `l[start:end]` for a non-negative `start` and an
optional non-negative `end` (`none` is Python `None`). -/
def pySlice (l : List α) (start : Nat) (e : Option Nat) : List α :=
  match e with
  | none => l.drop start
  | some e => (l.take e).drop start

/-- Loop body of `convert_to_fragments`: `rest` is what remains of
`spans[1:]`, `previous` the previously seen span, `fragment` the spans of
the run being accumulated, `index` the next fragment index, `fragments`
the fragments already closed. -/
def fragsLoop : List Span → Span → List Span → Nat → List Fragment → List Fragment
  | [], previous, fragment, index, fragments =>
      fragments
        ++ [⟨index, fragment, previous.font_size, previous.font_family,
             previous.text_color, none⟩]
  | current :: rest, previous, fragment, index, fragments =>
      if current.has_equal_metadata previous then
        fragsLoop rest current (fragment ++ [current]) index fragments
      else
        fragsLoop rest current [current] (index + 1)
          (fragments
            ++ [⟨index, fragment, previous.font_size, previous.font_family,
                 previous.text_color, none⟩])

/-- `convert_to_fragments`: groups consecutive metadata-equal spans into
fragments.  The Python code evaluates `spans[0]` first, which raises
`IndexError` on an empty list; that failure is the `none` branch. -/
def convert_to_fragments : List Span → Option (List Fragment)
  | [] => none
  | s :: rest => some (fragsLoop rest s [s] 0 [])

/-- `HYPERLINK_PATTERN.match t` for the regex `^(http|https)://`: `t`
starts with `http://` or with `https://` (case sensitive, anchored).
The prefix test is on the character lists, which coincides with
`String.isPrefixOf`. -/
def hyperlink_match (t : String) : Bool :=
  "http://".data.isPrefixOf t.data || "https://".data.isPrefixOf t.data

/-- One iteration of the `join_hyperlinks` loop on a single fragment.
`fragment.spans[0]` raises when the colour test passed and `spans` is
empty; that failure is the `none` branch. -/
def join_hyperlink_frag (f : Fragment) : Option Fragment :=
  if f.text_color = 1544191 then
    match f.spans with
    | [] => none
    | s :: _ =>
        if hyperlink_match s.text then
          some { f with text := some (f.to_string "") }
        else
          some f
  else
    some f

/-- Positional loop of `join_hyperlinks`: fragment at overall position
`i` is rewritten iff `start ≤ i < endv`. -/
def jhGo (start endv : Nat) : Nat → List Fragment → Option (List Fragment)
  | _, [] => some []
  | i, f :: rest =>
      if start ≤ i ∧ i < endv then
        match join_hyperlink_frag f with
        | none => none
        | some g => (jhGo start endv (i + 1) rest).map (fun l => g :: l)
      else
        (jhGo start endv (i + 1) rest).map (fun l => f :: l)

/-- `join_hyperlinks`: for every fragment in the Python slice `[start:end]`
whose colour is `1544191` and whose first span's text matches the
hyperlink pattern, set the override `text` to the spans' texts joined
with no separator.  Mutation of the shared list is embedded as returning
the updated list. -/
def join_hyperlinks (fs : List Fragment) (start : Nat := 0)
    (e : Option Nat := none) : Option (List Fragment) :=
  jhGo start (min (e.getD fs.length) fs.length) 0 fs

/-- `fragment.text or fragment.to_string()`: Python truthiness makes
both `None` and the empty string fall back to `to_string()` with the
default single-space separator. -/
def fragText (f : Fragment) : String :=
  match f.text with
  | none => f.to_string
  | some t => if t = "" then f.to_string else t

/-- Loop of `get_paragraph` over `self._fragments[start+1:end]`,
carrying `previous`, the accumulated `paragraph` pieces and the current
`break_index`. -/
def gpLoop : List Fragment → Fragment → List String → Nat → String × Nat
  | [], _, paragraph, break_index => (String.join paragraph, break_index)
  | current :: rest, previous, paragraph, break_index =>
      if current.font_size ≠ previous.font_size then
        (String.join paragraph, current.index)
      else
        gpLoop rest current (paragraph ++ [fragText current]) break_index

/-- `get_paragraph`: assemble the texts of consecutive equal-font-size
fragments starting at `start`, and report the break index.
`self._fragments[start]` raises when out of bounds, hence `Option`. -/
def get_paragraph (fs : List Fragment) (start : Nat := 0)
    (e : Option Nat := none) : Option (String × Nat) :=
  match fs.get? start with
  | none => none
  | some previous =>
      some (gpLoop (pySlice fs (start + 1) e) previous [fragText previous]
        previous.index)

/-- Inner loop of `get_index_by_text` (`enumerate(fragment.spans)`): the
position of the first span whose text equals `text`. -/
def findSpan : List Span → String → Nat → Option Nat
  | [], _, _ => none
  | s :: rest, text, i =>
      if s.text = text then some i else findSpan rest text (i + 1)

/-- Outer loop of `get_index_by_text` over the fragment slice. -/
def gibtLoop : List Fragment → String → Int × Int
  | [], _ => (-1, -1)
  | f :: rest, text =>
      match findSpan f.spans text 0 with
      | some i => ((f.index : Int), (i : Int))
      | none => gibtLoop rest text

/-- `get_index_by_text`: `(fragment.index, span position)` of the first
span in `[start:end]` whose text equals `text`, else `(-1, -1)`. -/
def get_index_by_text (fs : List Fragment) (text : String) (start : Nat := 0)
    (e : Option Nat := none) : Int × Int :=
  gibtLoop (pySlice fs start e) text

/-- The break index `get_paragraph` reports for the scanned tail `l`
when the scan so far carried font size `sz` and break index `bi`: the
index of the first fragment whose size differs, else `bi`. -/
def break_of (l : List Fragment) (sz : Int) (bi : Nat) : Nat :=
  match l.dropWhile (fun f => f.font_size == sz) with
  | [] => bi
  | b :: _ => b.index

/-- The guard of `join_hyperlinks` on one fragment: colour `1544191`
and the first span's text starts with `http://` or `https://` (false
when there is no first span). -/
def hyper_cond (f : Fragment) : Bool :=
  f.text_color == 1544191
    && (match f.spans with
        | [] => false
        | s :: _ => hyperlink_match s.text)

/-- All spans of a fragment are mutually metadata-equal. -/
def frag_mutual (f : Fragment) : Prop :=
  ∀ a ∈ f.spans, ∀ b ∈ f.spans, metaEq a b

/-- Every span of `f` is metadata-unequal to every span of `g`. -/
def frag_sep (f g : Fragment) : Prop :=
  ∀ a ∈ f.spans, ∀ b ∈ g.spans, ¬ metaEq a b

/-! ### Concrete inputs used by witnesses and counterexamples -/

/-- Example span sequence: two metadata-equal spans then a size change. -/
def exSpans : List Span :=
  [⟨12, "Arial", 0, "Hello"⟩, ⟨12, "Arial", 0, "World"⟩, ⟨14, "Arial", 0, "Title"⟩]

/-- The fragments `convert_to_fragments` produces from `exSpans`. -/
def exFrags : List Fragment :=
  [⟨0, [⟨12, "Arial", 0, "Hello"⟩, ⟨12, "Arial", 0, "World"⟩], 12, "Arial", 0, none⟩,
   ⟨1, [⟨14, "Arial", 0, "Title"⟩], 14, "Arial", 0, none⟩]

/-- Two fragments of the same font size (a uniform run). -/
def exUniform : List Fragment :=
  [⟨0, [⟨12, "F", 0, "a"⟩], 12, "F", 0, none⟩,
   ⟨1, [⟨12, "F", 0, "b"⟩], 12, "F", 0, none⟩]

/-- Fragments with font sizes `[12, 12, 14, 12]`. -/
def exParaFrags : List Fragment :=
  [⟨0, [⟨12, "F", 0, "a"⟩], 12, "F", 0, none⟩,
   ⟨1, [⟨12, "F", 0, "b"⟩], 12, "F", 0, none⟩,
   ⟨2, [⟨14, "F", 0, "c"⟩], 14, "F", 0, none⟩,
   ⟨3, [⟨12, "F", 0, "d"⟩], 12, "F", 0, none⟩]

/-- A hyperlink-coloured fragment whose first span starts a URL,
followed by a same-coloured fragment whose text is not a URL. -/
def exLinkFrags : List Fragment :=
  [⟨0, [⟨10, "F", 1544191, "https://exa"⟩, ⟨10, "F", 1544191, "mple.com"⟩],
    10, "F", 1544191, none⟩,
   ⟨1, [⟨10, "F", 1544191, "not a link"⟩], 10, "F", 1544191, none⟩]

/-- `exLinkFrags` after `join_hyperlinks`: the first fragment gets the
override text, the second is untouched. -/
def exLinkFragsJoined : List Fragment :=
  [⟨0, [⟨10, "F", 1544191, "https://exa"⟩, ⟨10, "F", 1544191, "mple.com"⟩],
    10, "F", 1544191, some "https://example.com"⟩,
   ⟨1, [⟨10, "F", 1544191, "not a link"⟩], 10, "F", 1544191, none⟩]

/-- A fragment whose override text is the empty string. -/
def emptyOverrideFrag : Fragment :=
  ⟨0, [⟨12, "F", 0, "x"⟩, ⟨12, "F", 0, "y"⟩], 12, "F", 0, some ""⟩

/-! ## Basic lemmas about span metadata -/

theorem metaEq_refl (a : Span) : metaEq a a := ⟨rfl, rfl, rfl⟩

theorem metaEq_symm {a b : Span} (h : metaEq a b) : metaEq b a :=
  ⟨h.1.symm, h.2.1.symm, h.2.2.symm⟩

theorem metaEq_trans {a b c : Span} (h : metaEq a b) (h' : metaEq b c) :
    metaEq a c :=
  ⟨h.1.trans h'.1, h.2.1.trans h'.2.1, h.2.2.trans h'.2.2⟩

theorem has_equal_metadata_iff {a b : Span} :
    a.has_equal_metadata b = true ↔ metaEq a b := by
  simp [Span.has_equal_metadata, metaEq, and_assoc]

/-! ## The fragment builder reproduces the span sequence -/

theorem fragsLoop_spans_join (rest : List Span) :
    ∀ (previous : Span) (fragment : List Span) (index : Nat)
      (fragments : List Fragment),
    ((fragsLoop rest previous fragment index fragments).map Fragment.spans).flatten
      = (fragments.map Fragment.spans).flatten ++ fragment ++ rest := by
  induction rest with
  | nil =>
      intro previous fragment index fragments
      simp [fragsLoop]
  | cons current rest ih =>
      intro previous fragment index fragments
      simp only [fragsLoop]
      by_cases h : current.has_equal_metadata previous
      · rw [if_pos h, ih]
        simp
      · rw [if_neg h, ih]
        simp

/-! ## Paragraph assembly loop characterisation -/

theorem gpLoop_eq (l : List Fragment) :
    ∀ (prev : Fragment) (para : List String) (bi : Nat),
    gpLoop l prev para bi =
      (String.join (para ++ (l.takeWhile
          (fun f => f.font_size == prev.font_size)).map fragText),
        break_of l prev.font_size bi) := by
  induction l with
  | nil =>
      intro prev para bi
      simp [gpLoop, break_of]
  | cons c rest ih =>
      intro prev para bi
      by_cases h : c.font_size = prev.font_size
      · have hne : ¬ c.font_size ≠ prev.font_size := not_not_intro h
        have hb : (c.font_size == prev.font_size) = true := beq_iff_eq.mpr h
        rw [gpLoop, if_neg hne, ih]
        simp [h, break_of, List.takeWhile_cons, List.dropWhile_cons]
      · have hb : (c.font_size == prev.font_size) = false := by
          simpa using h
        rw [gpLoop, if_pos h]
        simp [break_of, List.takeWhile_cons, List.dropWhile_cons, hb]

theorem pySlice_succ (l : List α) (start : Nat) (e : Option Nat) :
    pySlice l (start + 1) e = (pySlice l start e).drop 1 := by
  cases e with
  | none =>
      show l.drop (start + 1) = (l.drop start).drop 1
      rw [List.drop_drop, Nat.add_comm]
  | some e =>
      show (l.take e).drop (start + 1) = ((l.take e).drop start).drop 1
      rw [List.drop_drop, Nat.add_comm]

theorem mem_pySlice_succ {l : List α} {start : Nat} {e : Option Nat} {a : α}
    (h : a ∈ pySlice l (start + 1) e) : a ∈ pySlice l start e := by
  rw [pySlice_succ] at h
  exact List.mem_of_mem_drop h

/-! ## Partition invariants of the fragment builder -/

theorem fragsLoop_invariant (rest : List Span) :
    ∀ (previous : Span) (fragment : List Span) (index : Nat)
      (fragments : List Fragment),
    (∀ s ∈ fragment, metaEq s previous) →
    (∀ f ∈ fragments, frag_mutual f) →
    List.Chain' frag_sep fragments →
    (∀ f, fragments.getLast? = some f → ∀ a ∈ f.spans, ¬ metaEq a previous) →
    fragments.map Fragment.index = List.range index →
    (∀ f ∈ fragsLoop rest previous fragment index fragments, frag_mutual f) ∧
      List.Chain' frag_sep (fragsLoop rest previous fragment index fragments) ∧
      (fragsLoop rest previous fragment index fragments).map Fragment.index
        = List.range (fragsLoop rest previous fragment index fragments).length := by
  induction rest with
  | nil =>
      intro previous fragment index fragments h1 h2 h3 h4 h5
      have hlen : fragments.length = index := by
        have := congrArg List.length h5
        simpa using this
      refine ⟨?_, ?_, ?_⟩
      · intro f hf
        rw [fragsLoop] at hf
        rcases List.mem_append.mp hf with hf | hf
        · exact h2 f hf
        · simp only [List.mem_singleton] at hf
          subst hf
          intro a ha b hb
          exact metaEq_trans (h1 a ha) (metaEq_symm (h1 b hb))
      · rw [fragsLoop, List.chain'_append]
        refine ⟨h3, List.chain'_singleton _, ?_⟩
        intro x hx y hy
        simp only [List.head?_cons, Option.mem_def, Option.some.injEq] at hy
        subst hy
        intro a ha b hb hab
        exact h4 x (Option.mem_def.mp hx) a ha (metaEq_trans hab (h1 b hb))
      · rw [fragsLoop]
        simp [h5, hlen, List.range_succ]
  | cons current rest ih =>
      intro previous fragment index fragments h1 h2 h3 h4 h5
      by_cases h : current.has_equal_metadata previous = true
      · rw [fragsLoop, if_pos h]
        have hm : metaEq current previous := has_equal_metadata_iff.mp h
        apply ih
        · intro s hs
          rcases List.mem_append.mp hs with hs | hs
          · exact metaEq_trans (h1 s hs) (metaEq_symm hm)
          · simp only [List.mem_singleton] at hs
            subst hs
            exact metaEq_refl _
        · exact h2
        · exact h3
        · intro f hf a ha hac
          exact h4 f hf a ha (metaEq_trans hac hm)
        · exact h5
      · rw [fragsLoop, if_neg h]
        have hm : ¬ metaEq current previous := fun hc =>
          h (has_equal_metadata_iff.mpr hc)
        apply ih
        · intro s hs
          simp only [List.mem_singleton] at hs
          subst hs
          exact metaEq_refl _
        · intro f hf
          rcases List.mem_append.mp hf with hf | hf
          · exact h2 f hf
          · simp only [List.mem_singleton] at hf
            subst hf
            intro a ha b hb
            exact metaEq_trans (h1 a ha) (metaEq_symm (h1 b hb))
        · rw [List.chain'_append]
          refine ⟨h3, List.chain'_singleton _, ?_⟩
          intro x hx y hy
          simp only [List.head?_cons, Option.mem_def, Option.some.injEq] at hy
          subst hy
          intro a ha b hb hab
          exact h4 x (Option.mem_def.mp hx) a ha (metaEq_trans hab (h1 b hb))
        · intro f hf a ha hac
          rw [List.getLast?_concat] at hf
          have hf' : f = (⟨index, fragment, previous.font_size,
              previous.font_family, previous.text_color, none⟩ : Fragment) := by
            exact (Option.some.injEq _ _).mp hf.symm
          subst hf'
          exact hm (metaEq_symm (metaEq_trans (metaEq_symm (h1 a ha)) hac))
        · simp [h5, List.range_succ]

/-! ## Hyperlink merge lemmas -/

theorem join_hyperlink_frag_eq {f g : Fragment}
    (h : join_hyperlink_frag f = some g) :
    g = if hyper_cond f then { f with text := some (f.to_string "") } else f := by
  by_cases hc : f.text_color = 1544191
  · cases hs : f.spans with
    | nil => simp [join_hyperlink_frag, hc, hs] at h
    | cons s tl =>
        by_cases hp : hyperlink_match s.text = true
        · simp only [join_hyperlink_frag, hc, hs, hp, if_true, if_pos,
            Option.some.injEq] at h
          simp only [hyper_cond, hc, hs, hp, beq_self_eq_true, Bool.and_self,
            if_true]
          exact h.symm
        · simp only [join_hyperlink_frag, hc, hs, if_true, if_pos,
            Option.some.injEq, if_neg hp] at h
          have hp' : hyperlink_match s.text = false := by
            revert hp
            cases hyperlink_match s.text <;> simp
          simp only [hyper_cond, hs, hp', Bool.and_false, if_neg,
            Bool.false_eq_true, not_false_iff]
          exact h.symm
  · simp only [join_hyperlink_frag, if_neg hc, Option.some.injEq] at h
    have hc' : (f.text_color == 1544191) = false := by
      simpa using hc
    simp only [hyper_cond, hc', Bool.false_and, if_neg, Bool.false_eq_true,
      not_false_iff]
    exact h.symm

theorem join_hyperlink_frag_meta {f g : Fragment}
    (h : join_hyperlink_frag f = some g) :
    g.index = f.index ∧ g.spans = f.spans ∧ g.font_size = f.font_size ∧
      g.font_family = f.font_family ∧ g.text_color = f.text_color := by
  rw [join_hyperlink_frag_eq h]
  split <;> simp

theorem join_hyperlink_frag_idem {f g : Fragment}
    (h : join_hyperlink_frag f = some g) :
    join_hyperlink_frag g = some g := by
  have he := join_hyperlink_frag_eq h
  by_cases hcond : hyper_cond f = true
  · rw [if_pos hcond] at he
    subst he
    have hc : f.text_color = 1544191 := by
      simp only [hyper_cond, Bool.and_eq_true, beq_iff_eq] at hcond
      exact hcond.1
    obtain ⟨s, tl, hs⟩ : ∃ s tl, f.spans = s :: tl := by
      rcases hsp : f.spans with _ | ⟨s, tl⟩
      · exfalso
        simp [hyper_cond, hsp] at hcond
      · exact ⟨s, tl, rfl⟩
    have hp : hyperlink_match s.text = true := by
      simp only [hyper_cond, hs, Bool.and_eq_true] at hcond
      exact hcond.2
    simp [join_hyperlink_frag, hc, hs, hp, Fragment.to_string]
  · rw [if_neg hcond] at he
    subst he
    exact h

theorem option_map_cons_eq_some {α : Type} {o : Option (List α)} {g : α}
    {out : List α} (h : o.map (fun l => g :: l) = some out) :
    ∃ out', o = some out' ∧ out = g :: out' := by
  cases o with
  | none => simp at h
  | some o => exact ⟨o, rfl, by simpa using h.symm⟩

theorem jhGo_some (start endv : Nat) (l : List Fragment) :
    ∀ (i : Nat) (out : List Fragment), jhGo start endv i l = some out →
    out.length = l.length ∧
      ∀ j, out.get? j = (l.get? j).bind (fun f =>
        if start ≤ i + j ∧ i + j < endv then join_hyperlink_frag f
        else some f) := by
  induction l with
  | nil =>
      intro i out h
      rw [jhGo] at h
      obtain rfl : out = [] := ((Option.some.injEq _ _).mp h).symm
      exact ⟨rfl, fun j => by simp⟩
  | cons f rest ih =>
      intro i out h
      rw [jhGo] at h
      by_cases hg : start ≤ i ∧ i < endv
      · rw [if_pos hg] at h
        cases hf : join_hyperlink_frag f with
        | none => rw [hf] at h; exact absurd h (by simp)
        | some g =>
            rw [hf] at h
            obtain ⟨out', hout', rfl⟩ := option_map_cons_eq_some h
            obtain ⟨hlen, hget⟩ := ih (i + 1) out' hout'
            constructor
            · simp [hlen]
            · intro j
              cases j with
              | zero => simp [hg, hf]
              | succ j =>
                  have harith : i + 1 + j = i + (j + 1) := by omega
                  rw [List.get?_cons_succ, List.get?_cons_succ, hget j, harith]
      · rw [if_neg hg] at h
        obtain ⟨out', hout', rfl⟩ := option_map_cons_eq_some h
        obtain ⟨hlen, hget⟩ := ih (i + 1) out' hout'
        constructor
        · simp [hlen]
        · intro j
          cases j with
          | zero => simp [hg]
          | succ j =>
              have harith : i + 1 + j = i + (j + 1) := by omega
              rw [List.get?_cons_succ, List.get?_cons_succ, hget j, harith]

theorem jhGo_idem (start endv : Nat) (l : List Fragment) :
    ∀ (i : Nat) (out : List Fragment), jhGo start endv i l = some out →
    jhGo start endv i out = some out := by
  induction l with
  | nil =>
      intro i out h
      rw [jhGo] at h
      obtain rfl : out = [] := ((Option.some.injEq _ _).mp h).symm
      rfl
  | cons f rest ih =>
      intro i out h
      rw [jhGo] at h
      by_cases hg : start ≤ i ∧ i < endv
      · rw [if_pos hg] at h
        cases hf : join_hyperlink_frag f with
        | none => rw [hf] at h; exact absurd h (by simp)
        | some g =>
            rw [hf] at h
            obtain ⟨out', hout', rfl⟩ := option_map_cons_eq_some h
            rw [jhGo, if_pos hg, join_hyperlink_frag_idem hf,
              ih (i + 1) out' hout']
            rfl
      · rw [if_neg hg] at h
        obtain ⟨out', hout', rfl⟩ := option_map_cons_eq_some h
        rw [jhGo, if_neg hg, ih (i + 1) out' hout']
        rfl

/-! ## Text locator lemmas -/

theorem findSpan_none (q : String) (l : List Span) :
    ∀ i, findSpan l q i = none ↔ ∀ s ∈ l, s.text ≠ q := by
  induction l with
  | nil => intro i; simp [findSpan]
  | cons s rest ih =>
      intro i
      by_cases h : s.text = q
      · simp [findSpan, h]
      · simp [findSpan, h, ih (i + 1)]

theorem findSpan_some (q : String) (l : List Span) :
    ∀ i, l.any (fun s => s.text == q) = true →
    findSpan l q i = some (i + l.findIdx (fun s => s.text == q)) := by
  induction l with
  | nil => intro i h; simp at h
  | cons s rest ih =>
      intro i h
      by_cases hs : s.text = q
      · simp [findSpan, hs, List.findIdx_cons]
      · have h' : rest.any (fun s => s.text == q) = true := by
          simp only [List.any_cons, Bool.or_eq_true] at h
          rcases h with h | h
          · exact absurd (beq_iff_eq.mp h) hs
          · exact h
        have hsb : (s.text == q) = false := by simpa using hs
        rw [findSpan, if_neg hs, ih (i + 1) h']
        simp [List.findIdx_cons, hsb]
        omega

theorem gibtLoop_eq (q : String) (l : List Fragment) :
    gibtLoop l q =
      match l.find? (fun f => f.spans.any (fun s => s.text == q)) with
      | none => (-1, -1)
      | some f =>
          ((f.index : Int),
            ((f.spans.findIdx (fun s => s.text == q) : Nat) : Int)) := by
  induction l with
  | nil => rfl
  | cons f rest ih =>
      by_cases h : f.spans.any (fun s => s.text == q) = true
      · rw [gibtLoop, findSpan_some q f.spans 0 h,
          List.find?_cons_of_pos rest h]
        simp
      · have hall : ∀ s ∈ f.spans, s.text ≠ q := by
          intro s hs hsq
          exact h (List.any_eq_true.mpr ⟨s, hs, by simpa using hsq⟩)
        have hn : findSpan f.spans q 0 = none :=
          (findSpan_none q f.spans 0).mpr hall
        rw [gibtLoop, hn, List.find?_cons_of_neg rest h]
        exact ih

/-! ## Claim theorems -/

/-- C8: `convert_to_fragments` applied to a span list of length zero
produces no fragment list; it signals the empty-document failure (the
`none` branch, Python's `IndexError` on `spans[0]`). -/
theorem C8_empty_input_fails : convert_to_fragments ([] : List Span) = none :=
  rfl

/-- C2: concatenating the span lists of the fragments produced by
`convert_to_fragments`, in fragment order, reproduces the input span
sequence exactly — no span lost, duplicated or reordered. -/
theorem C2_spans_concat (spans : List Span) (fs : List Fragment)
    (hc : convert_to_fragments spans = some fs) :
    (fs.map Fragment.spans).flatten = spans := by
  cases spans with
  | nil => exact absurd hc (by simp [convert_to_fragments])
  | cons s rest =>
      have h : fs = fragsLoop rest s [s] 0 [] := by
        rw [convert_to_fragments] at hc
        exact ((Option.some.injEq _ _).mp hc).symm
      rw [h]
      simpa using fragsLoop_spans_join rest s [s] 0 []

/-- Witness for C2 at a concrete three-span input. -/
theorem C2_witness :
    convert_to_fragments exSpans = some exFrags ∧
      (exFrags.map Fragment.spans).flatten = exSpans :=
  ⟨by decide, C2_spans_concat exSpans exFrags (by decide)⟩

/-- C3: in the output of `convert_to_fragments`, any two spans within
one fragment are metadata-equal, any span of a fragment is
metadata-unequal to any span of the adjacent fragment, and the fragment
indices are `0, 1, 2, …` in creation order. -/
theorem C3_partition (spans : List Span) (fs : List Fragment)
    (hc : convert_to_fragments spans = some fs) :
    (∀ f ∈ fs, ∀ a ∈ f.spans, ∀ b ∈ f.spans, metaEq a b) ∧
      List.Chain' frag_sep fs ∧
      fs.map Fragment.index = List.range fs.length := by
  cases spans with
  | nil => exact absurd hc (by simp [convert_to_fragments])
  | cons s rest =>
      have h : fs = fragsLoop rest s [s] 0 [] := by
        rw [convert_to_fragments] at hc
        exact ((Option.some.injEq _ _).mp hc).symm
      subst h
      have hinv := fragsLoop_invariant rest s [s] 0 []
        (by
          intro t ht
          simp only [List.mem_singleton] at ht
          subst ht
          exact metaEq_refl _)
        (by intro f hf; exact absurd hf (List.not_mem_nil f))
        List.chain'_nil
        (by intro f hf; exact absurd hf (by simp))
        (by simp)
      exact ⟨fun f hf => hinv.1 f hf, hinv.2.1, hinv.2.2⟩

/-- Witness for C3 at a concrete three-span input. -/
theorem C3_witness :
    convert_to_fragments exSpans = some exFrags ∧
      ((∀ f ∈ exFrags, ∀ a ∈ f.spans, ∀ b ∈ f.spans, metaEq a b) ∧
        List.Chain' frag_sep exFrags ∧
        exFrags.map Fragment.index = List.range exFrags.length) :=
  ⟨by decide, C3_partition exSpans exFrags (by decide)⟩

/-- C1 counterexample: `exUniform` has two fragments of equal font size
(indices 0 and 1), so for start 0 and no bound the range is uniform and
holds two fragments; the claim predicts break index 1 (the final
in-range fragment's index), but `get_paragraph` returns 0, the starting
fragment's index, because `break_index` is never reassigned when no
size change occurs. -/
theorem C1_counterexample :
    exUniform.map Fragment.font_size = [12, 12] ∧
      exUniform.map Fragment.index = [0, 1] ∧
      get_paragraph exUniform 0 none = some ("ab", 0) := by
  decide

/-- C1 (amended): for an in-bounds start whose range `[start, end)` is
uniform in font size and contains at least two fragments,
`get_paragraph` returns as break index the starting fragment's own
index — not the final in-range fragment's index and not a sentinel. -/
theorem C1_uniform_break (fs : List Fragment) (start : Nat) (e : Option Nat)
    (h : start < fs.length)
    (huni : ∀ f ∈ pySlice fs start e,
      f.font_size = (fs.get ⟨start, h⟩).font_size)
    (_hlen : 2 ≤ (pySlice fs start e).length) :
    ∃ s, get_paragraph fs start e = some (s, (fs.get ⟨start, h⟩).index) := by
  have hg : fs.get? start = some (fs.get ⟨start, h⟩) := List.get?_eq_get h
  have hdrop : (pySlice fs (start + 1) e).dropWhile
      (fun f => f.font_size == (fs.get ⟨start, h⟩).font_size) = [] := by
    rw [List.dropWhile_eq_nil_iff]
    intro f hf
    exact beq_iff_eq.mpr (huni f (mem_pySlice_succ hf))
  have hb : break_of (pySlice fs (start + 1) e)
      (fs.get ⟨start, h⟩).font_size (fs.get ⟨start, h⟩).index
      = (fs.get ⟨start, h⟩).index := by
    simp only [break_of, hdrop]
  refine ⟨String.join ([fragText (fs.get ⟨start, h⟩)] ++
      ((pySlice fs (start + 1) e).takeWhile
        (fun f => f.font_size == (fs.get ⟨start, h⟩).font_size)).map
          fragText), ?_⟩
  simp only [get_paragraph, hg]
  rw [gpLoop_eq, hb]

/-- Witness for the amended C1 at two uniform-size fragments. -/
theorem C1_witness :
    ∃ s, get_paragraph exUniform 0 none
      = some (s, (exUniform.get ⟨0, by decide⟩).index) :=
  C1_uniform_break exUniform 0 none (by decide) (by decide) (by decide)

/-- C4: `get_paragraph` joins, with no separator, the text (override or
space-joined spans, `fragText`) of the starting fragment and of each
following in-range fragment up to the first font-size change; the break
index is that first differing fragment's own index (or the starting
fragment's index when no size change occurs in range, per C1). -/
theorem C4_paragraph_assembly (fs : List Fragment) (start : Nat)
    (e : Option Nat) (h : start < fs.length) :
    get_paragraph fs start e =
      some (String.join (fragText (fs.get ⟨start, h⟩) ::
          ((pySlice fs (start + 1) e).takeWhile
            (fun f => f.font_size == (fs.get ⟨start, h⟩).font_size)).map
              fragText),
        break_of (pySlice fs (start + 1) e) (fs.get ⟨start, h⟩).font_size
          (fs.get ⟨start, h⟩).index) := by
  have hg : fs.get? start = some (fs.get ⟨start, h⟩) := List.get?_eq_get h
  simp only [get_paragraph, hg]
  rw [gpLoop_eq, List.singleton_append]

/-- Witness for C4: fragments with sizes `[12, 12, 14, 12]`, start 0. -/
theorem C4_witness :
    get_paragraph exParaFrags 0 none =
      some (String.join (fragText (exParaFrags.get ⟨0, by decide⟩) ::
          ((pySlice exParaFrags (0 + 1) none).takeWhile
            (fun f => f.font_size == (exParaFrags.get ⟨0, by decide⟩).font_size)).map
              fragText),
        break_of (pySlice exParaFrags (0 + 1) none)
          (exParaFrags.get ⟨0, by decide⟩).font_size
          (exParaFrags.get ⟨0, by decide⟩).index) :=
  C4_paragraph_assembly exParaFrags 0 none (by decide)

/-- C5: after a successful `join_hyperlinks fs start e`, the fragment at
any in-range position is rewritten exactly when its text colour equals
`1544191` and its first span's text starts with `http://` or `https://`
(`hyper_cond`); a qualifying fragment's override text becomes its span
texts joined with no separator, and a non-qualifying in-range fragment
is left unmodified. -/
theorem C5_hyperlink_rule (fs fs' : List Fragment) (start : Nat)
    (e : Option Nat) (hj : join_hyperlinks fs start e = some fs')
    (j : Nat) (h1 : start ≤ j)
    (h2 : j < min (e.getD fs.length) fs.length) :
    fs'.get? j = (fs.get? j).map (fun f =>
      if hyper_cond f then { f with text := some (f.to_string "") }
      else f) := by
  obtain ⟨hlen, hget⟩ :=
    jhGo_some start (min (e.getD fs.length) fs.length) fs 0 fs' hj
  have hjlt : j < fs.length := lt_of_lt_of_le h2 (min_le_right _ _)
  have hcondj : start ≤ 0 + j ∧ 0 + j < min (e.getD fs.length) fs.length := by
    constructor <;> omega
  cases hf0 : fs.get? j with
  | none =>
      exfalso
      rw [List.get?_eq_none] at hf0
      omega
  | some f0 =>
      have heq' : fs'.get? j =
          if start ≤ 0 + j ∧ 0 + j < min (e.getD fs.length) fs.length then
            join_hyperlink_frag f0
          else some f0 := by
        have hg := hget j
        rw [hf0] at hg
        exact hg
      rw [if_pos hcondj] at heq'
      cases hjf : join_hyperlink_frag f0 with
      | none =>
          exfalso
          rw [hjf, List.get?_eq_none] at heq'
          omega
      | some g =>
          rw [hjf] at heq'
          rw [heq', join_hyperlink_frag_eq hjf]
          rfl

/-- Witness for C5: the first fragment of `exLinkFrags` qualifies and
receives override text `https://example.com`. -/
theorem C5_witness :
    join_hyperlinks exLinkFrags 0 none = some exLinkFragsJoined ∧
      exLinkFragsJoined.get? 0 = (exLinkFrags.get? 0).map (fun f =>
        if hyper_cond f then { f with text := some (f.to_string "") }
        else f) :=
  ⟨by decide, C5_hyperlink_rule exLinkFrags exLinkFragsJoined 0 none
    (by decide) 0 (by decide) (by decide)⟩

/-- C6: `join_hyperlinks` is idempotent — a second application over the
same range returns the once-merged fragment list unchanged, override
texts included. -/
theorem C6_idempotent (fs fs' : List Fragment) (start : Nat)
    (e : Option Nat) (hj : join_hyperlinks fs start e = some fs') :
    join_hyperlinks fs' start e = some fs' := by
  have hlen : fs'.length = fs.length :=
    (jhGo_some start (min (e.getD fs.length) fs.length) fs 0 fs' hj).1
  rw [join_hyperlinks] at hj ⊢
  rw [hlen]
  exact jhGo_idem start (min (e.getD fs.length) fs.length) fs 0 fs' hj

/-- Witness for C6 at `exLinkFrags`. -/
theorem C6_witness :
    join_hyperlinks exLinkFrags 0 none = some exLinkFragsJoined ∧
      join_hyperlinks exLinkFragsJoined 0 none = some exLinkFragsJoined :=
  ⟨by decide, C6_idempotent exLinkFrags exLinkFragsJoined 0 none (by decide)⟩

/-- C7: `join_hyperlinks` never changes the number of fragments, and at
every position it leaves every field except the override `text` (index,
spans, font size, font family, colour) unchanged.  The other operations
(`get_paragraph`, `get_index_by_text`, `get_fragments`) are embedded as
pure functions of the fragment list, mutating nothing by construction. -/
theorem C7_frame (fs fs' : List Fragment) (start : Nat) (e : Option Nat)
    (hj : join_hyperlinks fs start e = some fs') :
    fs'.length = fs.length ∧
      ∀ j, (fs'.get? j).map (fun f =>
          (f.index, f.spans, f.font_size, f.font_family, f.text_color))
        = (fs.get? j).map (fun f =>
          (f.index, f.spans, f.font_size, f.font_family, f.text_color)) := by
  obtain ⟨hlen, hget⟩ :=
    jhGo_some start (min (e.getD fs.length) fs.length) fs 0 fs' hj
  refine ⟨hlen, fun j => ?_⟩
  cases hf0 : fs.get? j with
  | none =>
      have hn : fs'.get? j = none := by
        rw [List.get?_eq_none] at hf0 ⊢
        omega
      rw [hn]
  | some f0 =>
      have hjlt : j < fs.length := by
        rcases List.get?_eq_some.mp hf0 with ⟨hl, _⟩
        exact hl
      have heq' : fs'.get? j =
          if start ≤ 0 + j ∧ 0 + j < min (e.getD fs.length) fs.length then
            join_hyperlink_frag f0
          else some f0 := by
        have hg := hget j
        rw [hf0] at hg
        exact hg
      by_cases hc : start ≤ 0 + j ∧ 0 + j < min (e.getD fs.length) fs.length
      · rw [if_pos hc] at heq'
        cases hjf : join_hyperlink_frag f0 with
        | none =>
            exfalso
            rw [hjf, List.get?_eq_none] at heq'
            omega
        | some g =>
            rw [hjf] at heq'
            rw [heq']
            obtain ⟨m1, m2, m3, m4, m5⟩ := join_hyperlink_frag_meta hjf
            simp [m1, m2, m3, m4, m5]
      · rw [if_neg hc] at heq'
        rw [heq']

/-- Witness for C7 at `exLinkFrags`. -/
theorem C7_witness :
    join_hyperlinks exLinkFrags 0 none = some exLinkFragsJoined ∧
      (exLinkFragsJoined.length = exLinkFrags.length ∧
        ∀ j, (exLinkFragsJoined.get? j).map (fun f =>
            (f.index, f.spans, f.font_size, f.font_family, f.text_color))
          = (exLinkFrags.get? j).map (fun f =>
            (f.index, f.spans, f.font_size, f.font_family, f.text_color))) :=
  ⟨by decide, C7_frame exLinkFrags exLinkFragsJoined 0 none (by decide)⟩

theorem empty_append_str (s : String) : "" ++ s = s := by
  cases s with
  | mk data => rfl

/-- C9: `get_index_by_text` equals a first-match search: the first
fragment in `[start, end)` containing a span whose text equals the query
exactly yields `(that fragment's index, position of its first matching
span)`; and the result is `(-1, -1)` precisely when no span in the range
has text equal to the query (exact equality — no partial or
case-insensitive match). -/
theorem C9_locator (fs : List Fragment) (q : String) (start : Nat)
    (e : Option Nat) :
    get_index_by_text fs q start e =
      (match (pySlice fs start e).find?
          (fun f => f.spans.any (fun s => s.text == q)) with
        | none => (-1, -1)
        | some f =>
            ((f.index : Int),
              ((f.spans.findIdx (fun s => s.text == q) : Nat) : Int))) ∧
      (get_index_by_text fs q start e = (-1, -1) ↔
        ∀ f ∈ pySlice fs start e, ∀ s ∈ f.spans, s.text ≠ q) := by
  have h1 := gibtLoop_eq q (pySlice fs start e)
  have h2 : get_index_by_text fs q start e
      = gibtLoop (pySlice fs start e) q := rfl
  refine ⟨h1, ?_⟩
  rw [h2, h1]
  cases hfind : (pySlice fs start e).find?
      (fun f => f.spans.any (fun s => s.text == q)) with
  | none =>
      simp only
      constructor
      · intro _ f hf s hs hsq
        have hnone := List.find?_eq_none.mp hfind f hf
        exact hnone (List.any_eq_true.mpr ⟨s, hs, by simpa using hsq⟩)
      · intro _
        trivial
  | some f =>
      simp only
      constructor
      · intro hpair
        exfalso
        have hfst : ((f.index : Nat) : Int) = -1 := congrArg Prod.fst hpair
        omega
      · intro hall
        exfalso
        have hp := List.find?_some hfind
        have hmem := List.mem_of_find?_eq_some hfind
        rcases List.any_eq_true.mp hp with ⟨s, hs, hsq⟩
        exact hall f hmem s hs (by simpa using hsq)

/-- C10: a fragment whose override text is the empty string is treated
as having no override — the `previous.text or previous.to_string()`
expression (`fragText`) falls back to the spans' texts joined with a
single space (the default `to_string` separator), and `get_paragraph`
emits that fallback for such a starting fragment. -/
theorem C10_empty_override (f : Fragment) (h : f.text = some "")
    (fs : List Fragment) (start : Nat) (hf : fs.get? start = some f) :
    fragText f = f.to_string " " ∧
      get_paragraph fs start (some (start + 1))
        = some (f.to_string " ", f.index) := by
  have h1 : fragText f = f.to_string " " := by
    simp [fragText, h, Fragment.to_string]
  have hslice : pySlice fs (start + 1) (some (start + 1))
      = ([] : List Fragment) := by
    show (fs.take (start + 1)).drop (start + 1) = []
    exact List.drop_eq_nil_of_le (fs.length_take_le (start + 1))
  refine ⟨h1, ?_⟩
  simp only [get_paragraph, hf, hslice, gpLoop]
  rw [h1]
  have hjoin : String.join [f.to_string " "] = "" ++ f.to_string " " := rfl
  rw [hjoin, empty_append_str]

/-- Witness for C10 at a fragment with empty-string override text. -/
theorem C10_witness :
    fragText emptyOverrideFrag = emptyOverrideFrag.to_string " " ∧
      get_paragraph [emptyOverrideFrag] 0 (some (0 + 1))
        = some (emptyOverrideFrag.to_string " ", emptyOverrideFrag.index) :=
  C10_empty_override emptyOverrideFrag rfl [emptyOverrideFrag] 0 rfl
